import Mathlib

/-!
Verification of the multi-file edit workflow of the ZENITH code editor backend
(`backend/agents/workflow.py`, class `MultiFileEditWorkflow`) and of the
structural extractor (`backend/services/tree_sitter_service.py`,
`TreeSitterService.parse_file`).

The Python code is shallowly embedded: strings are `String`/`List Char`,
Python dicts produced by the code are Lean structures whose `Option` fields
record key presence, external services (the LLM, the filesystem, the
tree-sitter native parser, the stdlib `json.loads`/`ast.literal_eval`
primitives) are parameters, and Python exceptions are `Except`/`Option`
values. The fixed regular expressions of the source are hand-compiled into
backtracking matchers that follow Python `re` semantics (leftmost match,
greedy `\s*` with backtracking, lazy `(.*?)`, `re.DOTALL`).
-/

/-- Python `str.isspace` / regex `\s` on ASCII: the whitespace characters
recognised by `str.strip()` and by `\s` in the source's patterns. -/
def isPyWs (c : Char) : Bool :=
  c = ' ' || c = '\t' || c = '\n' || c = '\r' || c = '\x0b' || c = '\x0c'

/-- Python `str.strip()` with no argument: drop leading and trailing
whitespace. -/
def pyStripWs (s : List Char) : List Char :=
  ((s.dropWhile isPyWs).reverse.dropWhile isPyWs).reverse

/-- Python `str.strip('"')`: drop leading and trailing double-quote
characters. -/
def pyStripQuote (s : List Char) : List Char :=
  ((s.dropWhile (· = '"')).reverse.dropWhile (· = '"')).reverse

/-- Python `str.split(",")`: split on every comma, keeping empty tokens;
`"".split(",") == [""]`. -/
def splitComma : List Char → List (List Char)
  | [] => [[]]
  | c :: rest =>
    if c = ',' then [] :: splitComma rest
    else
      match splitComma rest with
      | [] => [[c]]
      | t :: ts => (c :: t) :: ts

/-- Model of `re.search(r"\[.*\]", content, re.DOTALL)`: the leftmost match starts at
the first `[` and, `.*` being greedy with `.` matching newlines, extends to
the last `]` of the whole text; there is a match iff some `]` occurs
strictly after the first `[`. -/
def bracketMatch (s : List Char) : Option (List Char) :=
  match s.findIdx? (· = '[') with
  | Option.none => Option.none
  | some i =>
    match s.reverse.findIdx? (· = ']') with
    | Option.none => Option.none
    | some k =>
      let j := s.length - 1 - k
      if i < j then some ((s.drop i).take (j - i + 1)) else Option.none

/-- Python values as returned by `json.loads` / `ast.literal_eval` on the
bracketed substring: enough constructors for JSON / literal outputs. -/
inductive PyVal where
  | vstr (s : String)
  | vint (n : Int)
  | vbool (b : Bool)
  | vnone
  | vlist (xs : List PyVal)
  | vtup (xs : List PyVal)

/-- Python truthiness (`if not target_files:`): empty containers, empty
strings, zero, `False` and `None` are falsy. -/
def pyTruthy : PyVal → Bool
  | .vstr s => !s.data.isEmpty
  | .vint n => n != 0
  | .vbool b => b
  | .vnone => false
  | .vlist xs => !xs.isEmpty
  | .vtup xs => !xs.isEmpty

/-- Python `isinstance(x, list)`. -/
def PyVal.isList : PyVal → Bool
  | .vlist _ => true
  | _ => false

/-- The bracketed-substring parse of Phase A (workflow.py lines 538-544):
`json.loads` on the regex match, then `ast.literal_eval` on it, and the
initial `target_files = []` when both raise or there is no match. -/
def bracketParsed (jp lp : String → Option PyVal) (content : List Char) : PyVal :=
  match bracketMatch content with
  | some m =>
    match jp (String.mk m) with
    | some v => v
    | Option.none =>
      match lp (String.mk m) with
      | some v => v
      | Option.none => PyVal.vlist []
  | Option.none => PyVal.vlist []

/-- The comma-split fallback (workflow.py line 547): split the whole
response on commas, stripping whitespace then double quotes from each
token. -/
def commaSplitVal (content : List Char) : PyVal :=
  PyVal.vlist ((splitComma content).map
    (fun t => PyVal.vstr (String.mk (pyStripQuote (pyStripWs t)))))

/-- Phase A target resolution of `MultiFileEditWorkflow._generate_content`
(workflow.py lines 534-554), parameterised by the stdlib parsing primitives
`jp` (`json.loads`) and `lp` (`ast.literal_eval`), both external to the
repository; an exception in either is its `Option.none`.  Faithful to the
source: strip the response; find the bracketed substring; try `json.loads`
then `ast.literal_eval` on it, keeping `[]` when both fail; if the result is
falsy, comma-split the whole response when it contains a comma, else fall
back to the known files; finally, if the result is not a list, fall back to
the known files.  The element types of a parsed list are never checked. -/
def resolveTargets (jp lp : String → Option PyVal) (response : String)
    (known : List String) : PyVal :=
  let content := pyStripWs response.data
  let tf1 : PyVal :=
    if pyTruthy (bracketParsed jp lp content) then bracketParsed jp lp content
    else if content.contains ',' then commaSplitVal content
    else PyVal.vlist (known.map PyVal.vstr)
  if tf1.isList then tf1 else PyVal.vlist (known.map PyVal.vstr)

/- ### Backtracking matchers for the source's fixed regular expressions -/

/-- Consume a literal: `dropLit lit s` strips `lit` from the front of `s`. -/
def dropLit : List Char → List Char → Option (List Char)
  | [], s => some s
  | _ :: _, [] => Option.none
  | c :: cs, d :: ds => if c = d then dropLit cs ds else Option.none

/-- Compile `\s*LIT` where `LIT` starts with a non-whitespace character: the
greedy `\s*` must consume the whole whitespace run, since any backtracked
split would put a whitespace character where `LIT`'s first character is
required.  Deterministic, so no backtracking is needed. -/
def skipWsLit (lit : List Char) (s : List Char) : Option (List Char) :=
  dropLit lit (s.dropWhile isPyWs)

/-- One backtracking candidate for `\s*\n`: `\s*` consumes `k` characters
(all whitespace by construction of the caller) and the next character must
be a newline. -/
def wsNlTry (cont : List Char → Option α) (s : List Char) (k : Nat) : Option α :=
  if s.get? k = some '\n' then cont (s.drop (k + 1)) else Option.none

/-- Backtracking loop for `\s*\n` followed by a continuation: greedy `\s*`
tries the longest split first and backtracks one character at a time, also
when the continuation fails. -/
def wsNlLoop (cont : List Char → Option α) (s : List Char) : Nat → Option α
  | 0 => wsNlTry cont s 0
  | k + 1 =>
    match wsNlTry cont s (k + 1) with
    | some a => some a
    | Option.none => wsNlLoop cont s k

/-- Pattern `\s*\n` + continuation: the splits of the greedy `\s*` range over the
prefixes of the leading whitespace run, longest first. -/
def wsNl (cont : List Char → Option α) (s : List Char) : Option α :=
  wsNlLoop cont s (s.takeWhile isPyWs).length

/-- Lazy group `(.*?)` under `re.DOTALL` + continuation: try the shortest
capture first, growing it one character (newlines included) at a time while
the continuation fails.  Returns the captured text and the continuation's
result. -/
def lazyLoop (cont : List Char → Option α) :
    List Char → List Char → Option (List Char × α)
  | acc, [] =>
    match cont [] with
    | some a => some (acc.reverse, a)
    | Option.none => Option.none
  | acc, c :: rest =>
    match cont (c :: rest) with
    | some a => some (acc.reverse, a)
    | Option.none => lazyLoop cont (c :: acc) rest

/-- A search/replace hunk as recorded by the source
(`{"search": ..., "replace": ...}`, workflow.py lines 620-623). -/
structure Hunk where
  search : String
  replace : String
deriving DecidableEq, Repr

/-- Tail of the hunk pattern: `\n>{7}\s*REPLACE`; returns the rest of the
input after the match. -/
def hunkTail (u : List Char) : Option (List Char) :=
  match dropLit "\n>>>>>>>".data u with
  | some u1 => skipWsLit "REPLACE".data u1
  | Option.none => Option.none

/-- Second lazy group of the hunk pattern: `(.*?)` up to `hunkTail`. -/
def hunkG2 (t : List Char) : Option (List Char × List Char) :=
  lazyLoop hunkTail [] t

/-- Middle of the hunk pattern, the continuation of the first lazy group:
`\n={7}\s*\n` followed by the second group. -/
def hunkMid (t : List Char) : Option (List Char × List Char) :=
  match dropLit "\n=======".data t with
  | some t1 => wsNl hunkG2 t1
  | Option.none => Option.none

/-- Anchored match of the source's hunk pattern
`<{7}\s*SEARCH\s*\n(.*?)\n={7}\s*\n(.*?)\n>{7}\s*REPLACE` (workflow.py line
615) at the start of `s`; yields (group 1, (group 2, rest of input)). -/
def matchHunkAt (s : List Char) : Option (List Char × List Char × List Char) :=
  match dropLit "<<<<<<<".data s with
  | some s1 =>
    match skipWsLit "SEARCH".data s1 with
    | some s2 => wsNl (fun s3 => lazyLoop hunkMid [] s3) s2
    | Option.none => Option.none
  | Option.none => Option.none

/-- The `re.finditer` scan for the hunk pattern: try each start position left to
right; after a match, continue after its end.  Fuelled by the input length
(every step consumes at least one character, a successful match at least
seven). -/
def findHunksAux : Nat → List Char → List Hunk
  | 0, _ => []
  | _ + 1, [] => []
  | fuel + 1, c :: rest =>
    match matchHunkAt (c :: rest) with
    | some (g1, g2, rest2) =>
      { search := String.mk g1, replace := String.mk g2 } :: findHunksAux fuel rest2
    | Option.none => findHunksAux fuel rest

/-- Hunk extraction of the PATCH branch (workflow.py lines 614-623): all
non-overlapping matches of the hunk pattern, in order. -/
def extractHunks (s : String) : List Hunk :=
  findHunksAux s.data.length s.data

/-- Regex `\w` (ASCII): letters, digits, underscore. -/
def isWordChar (c : Char) : Bool :=
  c.isAlpha || c.isDigit || c = '_'

/-- Tail of the fenced-block pattern: the closing `\n` + three backticks. -/
def fencedTail (u : List Char) : Option (List Char) :=
  dropLit "\n```".data u

/-- Anchored match of the CREATE branch's fenced-block pattern
(workflow.py line 635): three backticks, an optional greedy word
(`(?:\w+)?`, deterministic since `\n` is not a word character), a newline,
then the lazy body up to a closing newline + three backticks. -/
def fencedAt (s : List Char) : Option (List Char × List Char) :=
  match dropLit "```".data s with
  | some s1 =>
    match dropLit ['\n'] (s1.dropWhile isWordChar) with
    | some s2 => lazyLoop fencedTail [] s2
    | Option.none => Option.none
  | Option.none => Option.none

/-- The `re.search` scan for the fenced-block pattern: leftmost match's group 1. -/
def fencedSearchAux : Nat → List Char → Option (List Char)
  | 0, _ => Option.none
  | _ + 1, [] => Option.none
  | fuel + 1, c :: rest =>
    match fencedAt (c :: rest) with
    | some (inner, _) => some inner
    | Option.none => fencedSearchAux fuel rest

/-- New-file content extraction (workflow.py lines 634-636): if the fenced
pattern matches, keep its first match's inner text, else the full response. -/
def newContentOf (s : String) : String :=
  match fencedSearchAux s.data.length s.data with
  | some inner => String.mk inner
  | Option.none => s

/- ### Phase B: per-file content generation -/

/-- An edit record as appended by `_generate_content` (workflow.py lines
626-643).  The Python value is a dict; an `Option` field is `none` exactly
when the source omits the key (`new_content` is absent on the PATCH branch;
`hunks` is present on both branches, explicitly `[]` on the CREATE one). -/
structure EditRecord where
  file_path : String
  hunks : Option (List Hunk)
  new_content : Option String
  is_new : Bool
deriving DecidableEq, Repr

/-- The PATCH-branch record for an existing path: extracted hunks, no
`new_content` key, `is_new = False`. -/
def patchRecord (p : String) (responseText : String) : EditRecord :=
  { file_path := p
    hunks := some (extractHunks responseText)
    new_content := Option.none
    is_new := false }

/-- The CREATE-branch record for a fresh path: fence-stripped content, an
explicitly empty hunk list, `is_new = True`. -/
def createRecord (p : String) (responseText : String) : EditRecord :=
  { file_path := p
    hunks := some []
    new_content := some (newContentOf responseText)
    is_new := true }

/-- One iteration of the per-file loop of `_generate_content` (workflow.py
lines 558-643).  External effects are parameters: `fs` is
`os.path.exists`, `readF` is `open(...).read()` (which can raise), and
`model` is the LLM round-trip for this file's prompt (the prompt is built
from the plan, the path and the original content; the call can raise —
network, auth, quota).  The loop body has no try/except, so a failure is
propagated as `Except.error`. -/
def processFile (fs : String → Bool) (readF : String → Except String String)
    (model : String → Except String String) (p : String) :
    Except String EditRecord :=
  if fs p then
    match readF p with
    | Except.error e => Except.error e
    | Except.ok _ =>
      match model p with
      | Except.error e => Except.error e
      | Except.ok text => Except.ok (patchRecord p text)
  else
    match model p with
    | Except.error e => Except.error e
    | Except.ok text => Except.ok (createRecord p text)

/-- Phase B of `_generate_content`: process the resolved target list in
order, appending one record per target; any uncaught per-file failure
aborts the loop and propagates (there is no per-file try/except in the
source). -/
def generateContent (fs : String → Bool) (readF : String → Except String String)
    (model : String → Except String String) :
    List String → Except String (List EditRecord)
  | [] => Except.ok []
  | p :: rest =>
    match processFile fs readF model p with
    | Except.error e => Except.error e
    | Except.ok r =>
      match generateContent fs readF model rest with
      | Except.error e => Except.error e
      | Except.ok rs => Except.ok (r :: rs)

/-- The SEARCH/REPLACE delimiter template of the source's PATCH prompt
(workflow.py lines 575-579), instantiated with one search/replace pair. -/
def renderHunk (search replace : String) : String :=
  "<<<<<<< SEARCH\n" ++ search ++ "\n=======\n" ++ replace ++ "\n>>>>>>> REPLACE"

/- ### Context analysis: RAG file discovery -/

/-- Model of `os.path.isabs` (POSIX): absolute iff it starts with `/`. -/
def isAbsPath (s : String) : Bool :=
  match s.data with
  | '/' :: _ => true
  | _ => false

/-- Model of `os.path.join(root, s)` as used here (POSIX, `root` non-empty without a
trailing separator): an absolute second component wins, otherwise the two
are joined with `/`. -/
def joinPath (root s : String) : String :=
  if isAbsPath s then s else root ++ "/" ++ s

/-- Guard of the discovery loop (workflow.py line 419): the source is
non-empty, not `"unknown"`, and exists either directly or relative to a set
indexed root. -/
def sourceResolves (fs : String → Bool) (root : Option String) (src : String) : Bool :=
  !src.data.isEmpty && src != "unknown" &&
    (fs src ||
      (match root with
       | some rt => !rt.data.isEmpty && fs (joinPath rt src)
       | Option.none => false))

/-- The path actually added for a resolving source (workflow.py lines
420-424): the root-joined path when a root is set and the source is
relative, else the source itself. -/
def addedPath (root : Option String) (src : String) : String :=
  match root with
  | some rt => if !rt.data.isEmpty && !isAbsPath src then joinPath rt src else src
  | Option.none => src

/-- Add to the discovered set (Python `set.add`): membership-preserving
insertion. -/
def insertUniq (acc : List String) (x : String) : List String :=
  if x ∈ acc then acc else acc ++ [x]

/-- One discovery-loop iteration of `_analyze_context` (workflow.py lines
413-424). -/
def addSource (fs : String → Bool) (root : Option String)
    (acc : List String) (src : String) : List String :=
  if sourceResolves fs root src then insertUniq acc (addedPath root src) else acc

/-- The file set computed by `_analyze_context` (workflow.py lines 397-432):
seed with the explicit files (set semantics), then fold the retriever's
source identifiers through the discovery guard.  A retriever failure or an
absent retriever is `sources = []`. -/
def analyzeFiles (fs : String → Bool) (root : Option String)
    (explicitFiles : List String) (sources : List String) : List String :=
  sources.foldl (addSource fs root) (explicitFiles.foldl insertUniq [])

/- ### Structural extractor: TreeSitterService.parse_file -/

/-- Embeds `TreeSitterService._get_language_from_ext` (tree_sitter_service.py lines
113-121). -/
def getLanguageFromExt (ext : String) : Option String :=
  if ext = ".py" then some "python"
  else if ext = ".js" then some "javascript"
  else if ext = ".jsx" then some "javascript"
  else if ext = ".ts" then some "typescript"
  else if ext = ".tsx" then some "typescript"
  else Option.none

/-- Model of `os.path.splitext(file_path)[1].lower()`: the extension is the suffix
from the last dot of the basename, unless every character before that dot
in the basename is itself a dot (so `.bashrc` has no extension). -/
def splitextLower (path : String) : String :=
  let base := (path.data.reverse.takeWhile (· ≠ '/')).reverse
  match (base.reverse.findIdx? (· = '.')) with
  | Option.none => ""
  | some k =>
    let i := base.length - 1 - k
    if (base.take i).any (· ≠ '.') then
      String.mk ((base.drop i).map Char.toLower)
    else ""

/-- Result dict of `TreeSitterService.parse_file`: an `{"error": msg}` dict,
the `{"language": ..., "structure": ...}` unsupported dict, or the parsed
`{"language", "classes", "functions"}` dict. -/
inductive ParseFileResult where
  | errorResult (msg : String)
  | unsupported (language structureMsg : String)
  | parsed (language : String) (classes functions : List String)
deriving DecidableEq, Repr

/-- Embeds `TreeSitterService.parse_file` (tree_sitter_service.py lines 79-111).
Externals as parameters: `parsers` is the set of languages whose tree-sitter
parser initialised, `readF` is the `open(...).read()` used when no content
is supplied, and `treeParse` is `parser.parse` + `_extract_structure`
(returning the class and function name lists, or the message of a raised
parse error).  Total: every failure is returned as a dict, never raised. -/
def parse_file (parsers : List String) (readF : String → Except String String)
    (treeParse : String → String → Except String (List String × List String))
    (file_path : String) (content : Option String) : ParseFileResult :=
  match (match content with
         | some c => Except.ok c
         | Option.none => readF file_path) with
  | Except.error e => ParseFileResult.errorResult e
  | Except.ok c =>
    match getLanguageFromExt (splitextLower file_path) with
    | Option.none => ParseFileResult.unsupported "unknown" "Not supported"
    | some lang =>
      if lang ∈ parsers then
        match treeParse lang c with
        | Except.ok (cs, fns) => ParseFileResult.parsed lang cs fns
        | Except.error e => ParseFileResult.errorResult e
      else ParseFileResult.unsupported "unknown" "Not supported"

/-! ### Helper lemmas: discovered-file set -/

theorem mem_insertUniq_iff (acc : List String) (x y : String) :
    y ∈ insertUniq acc x ↔ (y ∈ acc ∨ y = x) := by
  unfold insertUniq
  split
  · rename_i h
    constructor
    · exact Or.inl
    · rintro (hy | rfl)
      · exact hy
      · exact h
  · simp

theorem mem_insertUniq_self (acc : List String) (x : String) : x ∈ insertUniq acc x :=
  (mem_insertUniq_iff acc x x).2 (Or.inr rfl)

theorem mem_insertUniq_of_mem (acc : List String) (x y : String) (h : y ∈ acc) :
    y ∈ insertUniq acc x :=
  (mem_insertUniq_iff acc x y).2 (Or.inl h)

theorem mem_foldl_insertUniq_of_acc (l : List String) (acc : List String) (f : String)
    (h : f ∈ acc) : f ∈ l.foldl insertUniq acc := by
  induction l generalizing acc with
  | nil => exact h
  | cons a t ih => exact ih (insertUniq acc a) (mem_insertUniq_of_mem acc a f h)

theorem mem_foldl_insertUniq_of_mem (l : List String) (acc : List String) (f : String)
    (h : f ∈ l) : f ∈ l.foldl insertUniq acc := by
  induction l generalizing acc with
  | nil => cases h
  | cons a t ih =>
    rcases List.mem_cons.1 h with h1 | h1
    · subst h1
      exact mem_foldl_insertUniq_of_acc t _ _ (mem_insertUniq_self acc _)
    · exact ih (insertUniq acc a) h1

theorem mem_addSource_of_mem (fs : String → Bool) (root : Option String)
    (acc : List String) (src f : String) (h : f ∈ acc) : f ∈ addSource fs root acc src := by
  unfold addSource
  split
  · exact mem_insertUniq_of_mem acc (addedPath root src) f h
  · exact h

theorem mem_foldl_addSource_of_acc (fs : String → Bool) (root : Option String)
    (sources : List String) (acc : List String) (f : String) (h : f ∈ acc) :
    f ∈ sources.foldl (addSource fs root) acc := by
  induction sources generalizing acc with
  | nil => exact h
  | cons s t ih => exact ih (addSource fs root acc s) (mem_addSource_of_mem fs root acc s f h)

theorem mem_foldl_insertUniq_inv (l : List String) (acc : List String) (x : String)
    (h : x ∈ l.foldl insertUniq acc) : x ∈ acc ∨ x ∈ l := by
  induction l generalizing acc with
  | nil => exact Or.inl h
  | cons a t ih =>
    rcases ih (insertUniq acc a) h with hacc | hmem
    · rcases (mem_insertUniq_iff acc a x).1 hacc with h1 | rfl
      · exact Or.inl h1
      · exact Or.inr (List.mem_cons_self _ _)
    · exact Or.inr (List.mem_cons_of_mem a hmem)

theorem mem_foldl_addSource_inv (fs : String → Bool) (root : Option String)
    (sources : List String) (acc : List String) (x : String)
    (h : x ∈ sources.foldl (addSource fs root) acc) :
    x ∈ acc ∨ ∃ src, src ∈ sources ∧ sourceResolves fs root src = true ∧ x = addedPath root src := by
  induction sources generalizing acc with
  | nil => exact Or.inl h
  | cons s t ih =>
    rcases ih (addSource fs root acc s) h with hacc | ⟨src, hs, hres, hx⟩
    · unfold addSource at hacc
      split at hacc
      · rename_i hres
        rcases (mem_insertUniq_iff acc (addedPath root s) x).1 hacc with h1 | rfl
        · exact Or.inl h1
        · exact Or.inr ⟨s, List.mem_cons_self _ _, hres, rfl⟩
      · exact Or.inl hacc
    · exact Or.inr ⟨src, List.mem_cons_of_mem s hs, hres, hx⟩

/-- C8: for every task and explicit file set, the file set produced by the
Context Analyzer is a superset of the explicit set — discovery only ever
adds files, the seed files are never dropped (workflow.py lines 397-432). -/
theorem c8_superset (fs : String → Bool) (root : Option String)
    (explicitFiles sources : List String) (f : String) (hf : f ∈ explicitFiles) :
    f ∈ analyzeFiles fs root explicitFiles sources :=
  mem_foldl_addSource_of_acc fs root sources _ f
    (mem_foldl_insertUniq_of_mem explicitFiles [] f hf)

theorem c8_superset_witness :
    "a.py" ∈ analyzeFiles (fun _ => false) Option.none ["a.py"] ["ghost.py"] :=
  c8_superset (fun _ => false) Option.none ["a.py"] ["ghost.py"] "a.py" (by simp)

/-- C5 counterexample: the Context Analyzer can add a path that does not
exist on disk.  With `app.py` existing in the working directory (so the
direct `os.path.exists(source)` check passes) and the indexed root set to
`/idx` under which nothing exists, the loop still joins the relative source
onto the root and adds `/idx/app.py` — a path the filesystem predicate
rejects.  This refutes "only paths that exist on disk are added". -/
theorem c5_counterexample :
    analyzeFiles (fun p => p = "app.py") (some "/idx") [] ["app.py"] = ["/idx/app.py"]
      ∧ (fun p : String => decide (p = "app.py")) "/idx/app.py" = false := by
  constructor
  · decide
  · decide

/-- C5 (amended): every file produced by the Context Analyzer is either an
explicitly supplied file or the added-path of a retriever source that
passed the resolution guard (existing directly or relative to the indexed
root); non-resolving sources contribute nothing.  However, the added path
of a resolving relative source under a set indexed root is the root-joined
path, which can itself be a non-existing path when the source only resolved
directly (see the counterexample). -/
theorem c5_sources_amended (fs : String → Bool) (root : Option String)
    (explicitFiles sources : List String) (x : String)
    (hx : x ∈ analyzeFiles fs root explicitFiles sources) :
    x ∈ explicitFiles ∨
      ∃ src, src ∈ sources ∧ sourceResolves fs root src = true ∧ x = addedPath root src := by
  rcases mem_foldl_addSource_inv fs root sources _ x hx with hacc | hsrc
  · rcases mem_foldl_insertUniq_inv explicitFiles [] x hacc with hnil | hmem
    · cases hnil
    · exact Or.inl hmem
  · exact Or.inr hsrc

theorem c5_sources_amended_witness :
    "s.py" ∈ ["b.py"] ∨
      ∃ src, src ∈ ["s.py", "nope.py"]
        ∧ sourceResolves (fun p => p = "s.py") Option.none src = true
        ∧ "s.py" = addedPath Option.none src :=
  c5_sources_amended (fun p => p = "s.py") Option.none ["b.py"] ["s.py", "nope.py"] "s.py"
    (by decide)

/-! ### Helper lemmas: the per-file generation loop -/

theorem processFile_shape (fs : String → Bool) (readF model : String → Except String String)
    (p : String) (r : EditRecord) (h : processFile fs readF model p = Except.ok r) :
    (∃ text, r = patchRecord p text) ∨ (∃ text, r = createRecord p text) := by
  unfold processFile at h
  split at h
  · cases hr : readF p with
    | error e => rw [hr] at h; cases h
    | ok orig =>
      rw [hr] at h
      cases hm : model p with
      | error e => rw [hm] at h; cases h
      | ok text =>
        rw [hm] at h
        cases h
        exact Or.inl ⟨text, rfl⟩
  · cases hm : model p with
    | error e => rw [hm] at h; cases h
    | ok text =>
      rw [hm] at h
      cases h
      exact Or.inr ⟨text, rfl⟩

theorem processFile_path (fs : String → Bool) (readF model : String → Except String String)
    (p : String) (r : EditRecord) (h : processFile fs readF model p = Except.ok r) :
    r.file_path = p := by
  rcases processFile_shape fs readF model p r h with ⟨text, rfl⟩ | ⟨text, rfl⟩
  · rfl
  · rfl

theorem generateContent_mem_shape (fs : String → Bool)
    (readF model : String → Except String String) (targets : List String)
    (edits : List EditRecord) (h : generateContent fs readF model targets = Except.ok edits)
    (r : EditRecord) (hr : r ∈ edits) :
    ∃ p text, p ∈ targets ∧ (r = patchRecord p text ∨ r = createRecord p text) := by
  induction targets generalizing edits with
  | nil =>
    unfold generateContent at h
    cases h
    cases hr
  | cons p rest ih =>
    unfold generateContent at h
    cases hp : processFile fs readF model p with
    | error e => rw [hp] at h; cases h
    | ok r0 =>
      rw [hp] at h
      cases hrest : generateContent fs readF model rest with
      | error e => rw [hrest] at h; cases h
      | ok rs =>
        rw [hrest] at h
        cases h
        rcases List.mem_cons.1 hr with rfl | hmem
        · rcases processFile_shape fs readF model p r hp with ⟨text, ht⟩ | ⟨text, ht⟩
          · exact ⟨p, text, List.mem_cons_self _ _, Or.inl ht⟩
          · exact ⟨p, text, List.mem_cons_self _ _, Or.inr ht⟩
        · rcases ih rs hrest hmem with ⟨q, text, hq, hcase⟩
          exact ⟨q, text, List.mem_cons_of_mem p hq, hcase⟩

/-- C10: Phase B appends exactly one EditRecord per entry of the resolved
target list, in list order and without deduplication: whenever the loop
completes, the `file_path` fields of the produced records are exactly the
target list (so duplicated targets give duplicated records, and the lengths
agree).  From the per-file loop of `_generate_content` (workflow.py lines
558-646). -/
theorem c10_one_record_per_target (fs : String → Bool)
    (readF model : String → Except String String) (targets : List String)
    (edits : List EditRecord)
    (h : generateContent fs readF model targets = Except.ok edits) :
    edits.map EditRecord.file_path = targets ∧ edits.length = targets.length := by
  have hmap : edits.map EditRecord.file_path = targets := by
    induction targets generalizing edits with
    | nil =>
      unfold generateContent at h
      cases h
      rfl
    | cons p rest ih =>
      unfold generateContent at h
      cases hp : processFile fs readF model p with
      | error e => rw [hp] at h; cases h
      | ok r =>
        rw [hp] at h
        cases hrest : generateContent fs readF model rest with
        | error e => rw [hrest] at h; cases h
        | ok rs =>
          rw [hrest] at h
          cases h
          simp only [List.map_cons]
          rw [processFile_path fs readF model p r hp, ih rs hrest]
  refine ⟨hmap, ?_⟩
  have := congrArg List.length hmap
  simpa using this

/-- C10 witness: a duplicated target produces two records, one per
occurrence. -/
theorem c10_one_record_per_target_witness :
    List.map EditRecord.file_path
        ([{ file_path := "a.py", hunks := some [], new_content := some "hello", is_new := true },
          { file_path := "a.py", hunks := some [], new_content := some "hello", is_new := true }] :
          List EditRecord)
      = ["a.py", "a.py"]
    ∧ ([{ file_path := "a.py", hunks := some [], new_content := some "hello", is_new := true },
        { file_path := "a.py", hunks := some [], new_content := some "hello", is_new := true }] :
        List EditRecord).length
      = ["a.py", "a.py"].length :=
  c10_one_record_per_target (fun _ => false) (fun _ => Except.ok "")
    (fun _ => Except.ok "hello") ["a.py", "a.py"] _ rfl

/-- C3: every EditRecord produced by the Content Generator is a proper
variant (workflow.py lines 626-643): a record for an existing path
(`is_new = False`) carries no `new_content` key at all, and a record for a
non-existing path (`is_new = True`) carries no hunk — its `hunks` key is
present but always the explicitly empty list — while carrying a
`new_content`.  The `is_new` boolean is the variant tag. -/
theorem c3_variant_invariant (fs : String → Bool)
    (readF model : String → Except String String) (targets : List String)
    (edits : List EditRecord)
    (h : generateContent fs readF model targets = Except.ok edits)
    (r : EditRecord) (hr : r ∈ edits) :
    (r.is_new = false → r.new_content = Option.none)
      ∧ (r.is_new = true →
          (∀ hs, r.hunks = some hs → hs = []) ∧ ∃ c, r.new_content = some c) := by
  rcases generateContent_mem_shape fs readF model targets edits h r hr with
    ⟨p, text, _, rfl | rfl⟩
  · constructor
    · intro _
      rfl
    · intro hfalse
      simp [patchRecord] at hfalse
  · constructor
    · intro hfalse
      simp [createRecord] at hfalse
    · intro _
      constructor
      · intro hs hhs
        cases hhs
        rfl
      · exact ⟨newContentOf text, rfl⟩

/-- C3 witness: one existing and one fresh path, checked on a concrete run. -/
theorem c3_variant_invariant_witness :
    ((⟨"new.py", some [], some "x = 1", true⟩ : EditRecord).is_new = false →
      (⟨"new.py", some [], some "x = 1", true⟩ : EditRecord).new_content = Option.none)
    ∧ ((⟨"new.py", some [], some "x = 1", true⟩ : EditRecord).is_new = true →
        (∀ hs, (⟨"new.py", some [], some "x = 1", true⟩ : EditRecord).hunks = some hs → hs = [])
        ∧ ∃ c, (⟨"new.py", some [], some "x = 1", true⟩ : EditRecord).new_content = some c) :=
  c3_variant_invariant (fun _ => false) (fun _ => Except.ok "")
    (fun _ => Except.ok "x = 1") ["new.py"] _ rfl _ (by decide)

/-- C1 counterexample: a model-call failure for one file aborts the whole
batch.  With two target files and the model failing only on the first, the
per-file loop of `_generate_content` (workflow.py lines 558-646, no
per-file try/except) propagates the exception: no record list is produced
at all, so the second file never receives its EditRecord — refuting the
claim that other files in the same request still get their edits. -/
theorem c1_counterexample :
    generateContent (fun _ => false) (fun _ => Except.ok "")
      (fun p => if p = "a.py" then Except.error "quota exceeded" else Except.ok "content")
      ["a.py", "b.py"] = Except.error "quota exceeded" := rfl

/-- C1 (amended): a model-call (or file-read) failure while processing one
target file aborts the remaining files: once every earlier target processed
successfully and the current one fails, `_generate_content`'s loop
propagates exactly that failure, producing no EditRecord for any sibling;
it is caught only at the workflow boundary (`run`, workflow.py lines
672-680), which reports `success=False` with an empty edit list. -/
theorem c1_abort_propagates (fs : String → Bool)
    (readF model : String → Except String String) (pre : List String)
    (p : String) (rest : List String) (e : String)
    (hpre : ∀ q ∈ pre, ∃ r, processFile fs readF model q = Except.ok r)
    (hp : processFile fs readF model p = Except.error e) :
    generateContent fs readF model (pre ++ p :: rest) = Except.error e := by
  induction pre with
  | nil =>
    simp only [List.nil_append, generateContent, hp]
  | cons q t ih =>
    rcases hpre q (List.mem_cons_self _ _) with ⟨r, hq⟩
    have hrec := ih (fun q' hq' => hpre q' (List.mem_cons_of_mem q hq'))
    simp only [List.cons_append, generateContent, hq, List.append_eq, hrec]

theorem c1_abort_propagates_witness :
    generateContent (fun _ => false) (fun _ => Except.ok "")
      (fun p => if p = "b.py" then Except.error "boom" else Except.ok "x")
      (["a.py"] ++ "b.py" :: ["c.py"]) = Except.error "boom" :=
  c1_abort_propagates (fun _ => false) (fun _ => Except.ok "")
    (fun p => if p = "b.py" then Except.error "boom" else Except.ok "x")
    ["a.py"] "b.py" ["c.py"] "boom"
    (by
      intro q hq
      simp only [List.mem_singleton] at hq
      subst hq
      exact ⟨createRecord "a.py" "x", rfl⟩)
    rfl

/-- C9: `TreeSitterService.parse_file` never raises (it is a total function
of its inputs here): a failing read returns `{"error": msg}`, a failing
tree-sitter parse returns `{"error": msg}`, and an extension outside the
supported language map returns `{"language": "unknown", "structure": "Not
supported"}` (tree_sitter_service.py lines 79-111). -/
theorem c9_parse_file_errors (parsers : List String)
    (readF : String → Except String String)
    (treeParse : String → String → Except String (List String × List String)) :
    (∀ path c, getLanguageFromExt (splitextLower path) = Option.none →
        parse_file parsers readF treeParse path (some c)
          = ParseFileResult.unsupported "unknown" "Not supported")
    ∧ (∀ path e, readF path = Except.error e →
        parse_file parsers readF treeParse path Option.none
          = ParseFileResult.errorResult e)
    ∧ (∀ path c lang e, getLanguageFromExt (splitextLower path) = some lang →
        lang ∈ parsers → treeParse lang c = Except.error e →
        parse_file parsers readF treeParse path (some c)
          = ParseFileResult.errorResult e) := by
  refine ⟨?_, ?_, ?_⟩
  · intro path c hext
    simp only [parse_file, hext]
  · intro path e hread
    simp only [parse_file, hread]
  · intro path c lang e hext hmem htp
    simp only [parse_file, hext, htp, if_pos hmem]

theorem c9_parse_file_errors_witness :
    parse_file ["python"] (fun _ => Except.error "io error")
      (fun _ _ => Except.error "syntax error") "m.py" (some "def f(:")
      = ParseFileResult.errorResult "syntax error" :=
  (c9_parse_file_errors ["python"] (fun _ => Except.error "io error")
      (fun _ _ => Except.error "syntax error")).2.2
    "m.py" "def f(:" "python" "syntax error" rfl (by simp) rfl

/-- C4 counterexample: on the response `"I think we need app.py, utils.py"`
(no bracketed list, so neither parse primitive is consulted) the comma-split
fallback of `_generate_content` (workflow.py line 547) splits the WHOLE
response on commas, so the prose before the first filename is kept: the
resolved list is `["I think we need app.py", "utils.py"]`, not the claimed
`["app.py", "utils.py"]`. -/
theorem c4_counterexample :
    resolveTargets (fun _ => Option.none) (fun _ => Option.none)
        "I think we need app.py, utils.py" ["known.py"]
      = PyVal.vlist [PyVal.vstr "I think we need app.py", PyVal.vstr "utils.py"]
    ∧ PyVal.vlist [PyVal.vstr "I think we need app.py", PyVal.vstr "utils.py"]
      ≠ PyVal.vlist [PyVal.vstr "app.py", PyVal.vstr "utils.py"] := by
  constructor
  · rfl
  · intro hcontra
    simp at hcontra

/-- C4 (amended): on the response `"I think we need app.py, utils.py"` the
comma-split fallback fires (for any behaviour of the parse primitives, which
are never consulted since the response has no bracketed substring) and
yields `["I think we need app.py", "utils.py"]`: each comma-separated token
is stripped of surrounding whitespace and then of surrounding double
quotes, but text preceding the first comma is kept verbatim. -/
theorem c4_comma_split_amended (jp lp : String → Option PyVal) (known : List String) :
    resolveTargets jp lp "I think we need app.py, utils.py" known
      = PyVal.vlist [PyVal.vstr "I think we need app.py", PyVal.vstr "utils.py"] := rfl

/-! ### Helper lemmas: target resolution -/

theorem splitComma_ne_nil (l : List Char) : splitComma l ≠ [] := by
  cases l with
  | nil => simp [splitComma]
  | cons c rest =>
    unfold splitComma
    split
    · simp
    · rcases h : splitComma rest with _ | ⟨t, ts⟩ <;> simp [h]

theorem resolveTargets_cases (jp lp : String → Option PyVal) (response : String)
    (known : List String) :
    (∃ xs, xs ≠ [] ∧ resolveTargets jp lp response known = PyVal.vlist xs)
    ∨ resolveTargets jp lp response known = PyVal.vlist (known.map PyVal.vstr) := by
  simp only [resolveTargets]
  generalize bracketParsed jp lp (pyStripWs response.data) = tf0
  by_cases ht : pyTruthy tf0 = true
  · rw [if_pos ht]
    cases tf0 with
    | vlist xs =>
      left
      refine ⟨xs, ?_, ?_⟩
      · intro hnil
        subst hnil
        simp [pyTruthy] at ht
      · simp [PyVal.isList]
    | vstr s => right; simp [PyVal.isList]
    | vint n => right; simp [PyVal.isList]
    | vbool b => right; simp [PyVal.isList]
    | vnone => right; simp [PyVal.isList]
    | vtup xs => right; simp [PyVal.isList]
  · rw [if_neg ht]
    by_cases hc : (pyStripWs response.data).contains ',' = true
    · rw [if_pos hc]
      left
      refine ⟨(splitComma (pyStripWs response.data)).map
          (fun t => PyVal.vstr (String.mk (pyStripQuote (pyStripWs t)))), ?_, ?_⟩
      · intro hnil
        exact splitComma_ne_nil _ (List.map_eq_nil_iff.1 hnil)
      · simp [commaSplitVal, PyVal.isList]
    · rw [if_neg hc]
      right
      simp [PyVal.isList]

/-- C2 counterexample: a successfully parsed bracketed list whose elements
are NOT strings is used as the target list as-is — it is neither replaced
by `known_files` (the final guard checks only `isinstance(target_files,
list)`, never the element types) nor empty.  `json.loads("[1, 2]")` returns
the Python list `[1, 2]`, which is truthy and a list, so with
`known_files = ["a.py"]` the resolved value is `[1, 2]`, refuting "the
resolved target list equals known_files exactly" for a result that is not
a sequence of strings. -/
theorem c2_counterexample :
    resolveTargets
        (fun s => if s = "[1, 2]" then some (PyVal.vlist [PyVal.vint 1, PyVal.vint 2])
          else Option.none)
        (fun _ => Option.none) "[1, 2]" ["a.py"]
      = PyVal.vlist [PyVal.vint 1, PyVal.vint 2]
    ∧ PyVal.vlist [PyVal.vint 1, PyVal.vint 2]
      ≠ PyVal.vlist (["a.py"].map PyVal.vstr) := by
  constructor
  · rfl
  · intro hcontra
    simp at hcontra

/-- C2 (amended): after the JSON parse, the permissive literal parse and the
comma-split fallback, the resolution (a) always yields a Python list — the
final guard forces `known_files` whenever the candidate is not a `list`,
but it never inspects element types, so (d) any truthy parsed list,
strings or not, is used as-is; (b) never yields an empty list when
`known_files` is non-empty; and (c) yields exactly `known_files` whenever
the bracketed-substring parse produced nothing truthy (no bracketed
substring, both parses raising, or a falsy parse such as the empty list
from `"[]"`) and the response contains no comma. -/
theorem c2_fallback_amended (jp lp : String → Option PyVal) (response : String)
    (known : List String) :
    (∃ xs, resolveTargets jp lp response known = PyVal.vlist xs)
    ∧ (known ≠ [] → ∀ xs, resolveTargets jp lp response known = PyVal.vlist xs → xs ≠ [])
    ∧ (pyTruthy (bracketParsed jp lp (pyStripWs response.data)) = false →
        (pyStripWs response.data).contains ',' = false →
        resolveTargets jp lp response known = PyVal.vlist (known.map PyVal.vstr))
    ∧ (∀ xs, bracketParsed jp lp (pyStripWs response.data) = PyVal.vlist xs → xs ≠ [] →
        resolveTargets jp lp response known = PyVal.vlist xs) := by
  refine ⟨?_, ?_, ?_, ?_⟩
  · rcases resolveTargets_cases jp lp response known with ⟨xs, _, hx⟩ | hk
    · exact ⟨xs, hx⟩
    · exact ⟨known.map PyVal.vstr, hk⟩
  · intro hkn xs hx
    rcases resolveTargets_cases jp lp response known with ⟨ys, hys, hy⟩ | hk
    · rw [hx] at hy
      injection hy with hxy
      rw [hxy]
      exact hys
    · rw [hx] at hk
      injection hk with hxy
      rw [hxy]
      simpa using hkn
  · intro h1 h2
    have h2m : ',' ∉ pyStripWs response.data := by simpa using h2
    simp [resolveTargets, h1, h2m, PyVal.isList]
  · intro xs hbp hne
    have ht : pyTruthy (PyVal.vlist xs) = true := by
      cases xs with
      | nil => exact absurd rfl hne
      | cons a l => rfl
    simp only [resolveTargets]
    rw [hbp, if_pos ht]
    simp [PyVal.isList]

/-- C2 witness at the canonical empty-target-list response: `"[]"` parses
(as `json.loads` would) to the empty, falsy Python list, the response has
no comma, and resolution degrades exactly to `known_files`. -/
theorem c2_fallback_amended_witness :
    resolveTargets (fun s => if s = "[]" then some (PyVal.vlist []) else Option.none)
        (fun _ => Option.none) "[]" ["a.py"]
      = PyVal.vlist (["a.py"].map PyVal.vstr) :=
  (c2_fallback_amended (fun s => if s = "[]" then some (PyVal.vlist []) else Option.none)
      (fun _ => Option.none) "[]" ["a.py"]).2.2.1 (by decide) (by decide)

/-! ### Helper lemmas: the backtracking matchers -/

theorem stringMk_data (s : String) : String.mk s.data = s := by
  cases s
  rfl

theorem dropLit_eq_some (lit : List Char) :
    ∀ s t, dropLit lit s = some t ↔ s = lit ++ t := by
  induction lit with
  | nil =>
    intro s t
    simp [dropLit]
  | cons c cs ih =>
    intro s t
    cases s with
    | nil => simp [dropLit]
    | cons d ds =>
      by_cases hcd : c = d
      · subst hcd
        simp [dropLit, ih]
      · have hne : ¬ (d :: ds = c :: cs ++ t) := by
          intro h
          injection h with h1 _
          exact hcd h1.symm
        simp only [dropLit, if_neg hcd]
        constructor
        · intro h
          cases h
        · intro h
          exact absurd h hne

theorem dropLit_append (lit t : List Char) : dropLit lit (lit ++ t) = some t :=
  (dropLit_eq_some lit (lit ++ t) t).2 rfl

theorem findHunksAux_nil (n : Nat) : findHunksAux n [] = [] := by
  cases n <;> rfl

theorem lazyLoop_append {α : Type} (cont : List Char → Option α) :
    ∀ (x rest acc : List Char) (a : α),
      (∀ x2, x2 ≠ [] → x2 <:+ x → cont (x2 ++ rest) = Option.none) →
      cont rest = some a →
      lazyLoop cont acc (x ++ rest) = some (acc.reverse ++ x, a) := by
  intro x
  induction x with
  | nil =>
    intro rest acc a _ hok
    cases rest with
    | nil => simp [lazyLoop, hok]
    | cons c r => simp [lazyLoop, hok]
  | cons e x' ih =>
    intro rest acc a hfail hok
    have hcur : cont (e :: (x' ++ rest)) = Option.none := by
      have h := hfail (e :: x') (by simp) (List.suffix_refl _)
      simpa using h
    have hrec := ih rest (e :: acc) a
      (fun x2 h2 hsuf => hfail x2 h2 (hsuf.trans (List.suffix_cons e x'))) hok
    simp only [List.cons_append, lazyLoop, List.append_eq]
    rw [hcur, hrec]
    simp

theorem wsNl_cons_notWs {α : Type} (cont : List Char → Option α) (c : Char)
    (rest : List Char) (a : α) (hc : isPyWs c = false)
    (hok : cont (c :: rest) = some a) :
    wsNl cont ('\n' :: c :: rest) = some a := by
  have hcne : ¬ (('\n' :: c :: rest).get? 1 = some '\n') := by
    intro h
    simp only [List.get?] at h
    injection h with h
    subst h
    simp [isPyWs] at hc
  have htake : (('\n' :: c :: rest).takeWhile isPyWs).length = 1 := by
    have h1 : isPyWs '\n' = true := rfl
    simp [List.takeWhile, h1, hc]
  unfold wsNl
  rw [htake]
  show (match wsNlTry cont ('\n' :: c :: rest) 1 with
        | some a => some a
        | Option.none => wsNlLoop cont ('\n' :: c :: rest) 0) = some a
  rw [show wsNlTry cont ('\n' :: c :: rest) 1 = Option.none from by
    unfold wsNlTry
    exact if_neg hcne]
  show wsNlTry cont ('\n' :: c :: rest) 0 = some a
  unfold wsNlTry
  simpa using hok

theorem hunkMid_fail_cons (e : Char) (l : List Char) (he : ¬ e = '\n') :
    hunkMid (e :: l) = Option.none := by
  have h : ¬ ('\n' = e) := fun h => he h.symm
  simp [hunkMid, dropLit, h]

theorem hunkTail_fail_cons (e : Char) (l : List Char) (he : ¬ e = '\n') :
    hunkTail (e :: l) = Option.none := by
  have h : ¬ ('\n' = e) := fun h => he h.symm
  simp [hunkTail, dropLit, h]

theorem matchHunkAt_render (c d : Char) (cs ds : List Char)
    (hcw : isPyWs c = false) (hsn : '\n' ∉ (c :: cs))
    (hdw : isPyWs d = false) (hrn : '\n' ∉ (d :: ds)) :
    matchHunkAt ("<<<<<<< SEARCH\n".data ++ (c :: cs) ++ "\n=======\n".data
        ++ (d :: ds) ++ "\n>>>>>>> REPLACE".data)
      = some (c :: cs, d :: ds, []) := by
  have hTail : hunkTail ("\n>>>>>>> REPLACE".data) = some [] := by
    simp [hunkTail, dropLit, skipWsLit, List.dropWhile, isPyWs]
  have hG2fail : ∀ x2, x2 ≠ [] → x2 <:+ (d :: ds) →
      hunkTail (x2 ++ "\n>>>>>>> REPLACE".data) = Option.none := by
    intro x2 h2 hsuf
    cases x2 with
    | nil => exact absurd rfl h2
    | cons e l =>
      have he : ¬ e = '\n' := by
        intro h
        subst h
        exact hrn (hsuf.subset (List.mem_cons_self _ _))
      rw [List.cons_append]
      exact hunkTail_fail_cons e _ he
  have hG2 : hunkG2 ((d :: ds) ++ "\n>>>>>>> REPLACE".data) = some (d :: ds, []) := by
    have h := lazyLoop_append hunkTail (d :: ds) ("\n>>>>>>> REPLACE".data) [] []
      hG2fail hTail
    simpa [hunkG2] using h
  have hMid : hunkMid ("\n=======\n".data ++ ((d :: ds) ++ "\n>>>>>>> REPLACE".data))
      = some (d :: ds, []) := by
    have hdecomp : "\n=======\n".data ++ ((d :: ds) ++ "\n>>>>>>> REPLACE".data)
        = "\n=======".data ++ ('\n' :: d :: (ds ++ "\n>>>>>>> REPLACE".data)) := by
      simp
    rw [hdecomp]
    simp only [hunkMid, dropLit_append]
    exact wsNl_cons_notWs hunkG2 d (ds ++ "\n>>>>>>> REPLACE".data) (d :: ds, []) hdw
      (by simpa using hG2)
  have hG1fail : ∀ x2, x2 ≠ [] → x2 <:+ (c :: cs) →
      hunkMid (x2 ++ ("\n=======\n".data ++ ((d :: ds) ++ "\n>>>>>>> REPLACE".data)))
        = Option.none := by
    intro x2 h2 hsuf
    cases x2 with
    | nil => exact absurd rfl h2
    | cons e l =>
      have he : ¬ e = '\n' := by
        intro h
        subst h
        exact hsn (hsuf.subset (List.mem_cons_self _ _))
      rw [List.cons_append]
      exact hunkMid_fail_cons e _ he
  have hG1 : lazyLoop hunkMid []
      ((c :: cs) ++ ("\n=======\n".data ++ ((d :: ds) ++ "\n>>>>>>> REPLACE".data)))
      = some (c :: cs, d :: ds, []) := by
    have h := lazyLoop_append hunkMid (c :: cs)
      ("\n=======\n".data ++ ((d :: ds) ++ "\n>>>>>>> REPLACE".data)) [] (d :: ds, [])
      hG1fail hMid
    simpa using h
  have htext : "<<<<<<< SEARCH\n".data ++ (c :: cs) ++ "\n=======\n".data
      ++ (d :: ds) ++ "\n>>>>>>> REPLACE".data
      = "<<<<<<<".data ++ (' ' :: 'S' :: 'E' :: 'A' :: 'R' :: 'C' :: 'H' :: '\n' :: c ::
          (cs ++ ("\n=======\n".data ++ ((d :: ds) ++ "\n>>>>>>> REPLACE".data)))) := by
    simp
  rw [htext]
  simp only [matchHunkAt, dropLit_append]
  rw [show skipWsLit "SEARCH".data (' ' :: 'S' :: 'E' :: 'A' :: 'R' :: 'C' :: 'H' :: '\n'
      :: c :: (cs ++ ("\n=======\n".data ++ ((d :: ds) ++ "\n>>>>>>> REPLACE".data))))
      = some ('\n' :: c ::
          (cs ++ ("\n=======\n".data ++ ((d :: ds) ++ "\n>>>>>>> REPLACE".data))))
    from by simp [skipWsLit, List.dropWhile, isPyWs, dropLit]]
  exact wsNl_cons_notWs _ c _ (c :: cs, d :: ds, []) hcw (by simpa using hG1)

/-- C6 counterexample: the delimiter-template round-trip fails for pairs
whose search text itself contains a `=======` delimiter line.  Rendering
search `"a\n=======\nb"` with replace `"c"` and re-extracting yields the
single hunk `{search: "a", replace: "b\n=======\nc"}` — the lazy first
group stops at the first delimiter line — not the original pair. -/
theorem c6_counterexample :
    extractHunks (renderHunk "a\n=======\nb" "c")
      = [{ search := "a", replace := "b\n=======\nc" }]
    ∧ [({ search := "a", replace := "b\n=======\nc" } : Hunk)]
      ≠ [({ search := "a\n=======\nb", replace := "c" } : Hunk)] := by
  constructor
  · rfl
  · decide

/-- C6 (amended): hunk extraction round-trips the SEARCH/REPLACE delimiter
template for every single-line search/replace pair that does not begin with
whitespace (texts containing newlines can collide with the `\n=======\n` /
`\n>>>>>>> REPLACE` delimiter lines, see the counterexample); and, as in
the claim's scenario, the response
`"Plan: edit main.py\n<<<<<<< SEARCH\nfoo()\n=======\nbar()\n>>>>>>> REPLACE"`
for an existing `main.py` produces exactly one PatchEdit with the single
hunk `{search: "foo()", replace: "bar()"}` and `is_new = false`. -/
theorem c6_roundtrip_amended :
    (∀ (s r : String) (c d : Char) (cs ds : List Char),
        s.data = c :: cs → isPyWs c = false → '\n' ∉ s.data →
        r.data = d :: ds → isPyWs d = false → '\n' ∉ r.data →
        extractHunks (renderHunk s r) = [{ search := s, replace := r }])
    ∧ generateContent (fun p => p = "main.py") (fun _ => Except.ok "foo()\n")
        (fun _ => Except.ok
          "Plan: edit main.py\n<<<<<<< SEARCH\nfoo()\n=======\nbar()\n>>>>>>> REPLACE")
        ["main.py"]
      = Except.ok [(⟨"main.py", some [⟨"foo()", "bar()"⟩], Option.none, false⟩ :
          EditRecord)] := by
  constructor
  · intro s r c d cs ds hs hcw hsn hr hdw hrn
    have hdata : (renderHunk s r).data
        = "<<<<<<< SEARCH\n".data ++ (c :: cs) ++ "\n=======\n".data
            ++ (d :: ds) ++ "\n>>>>>>> REPLACE".data := by
      simp [renderHunk, ← hs, ← hr]
    rw [hs] at hsn
    rw [hr] at hrn
    have hmatch := matchHunkAt_render c d cs ds hcw hsn hdw hrn
    have hcons : "<<<<<<< SEARCH\n".data ++ (c :: cs) ++ "\n=======\n".data
        ++ (d :: ds) ++ "\n>>>>>>> REPLACE".data
        = '<' :: ("<<<<<< SEARCH\n".data ++ (c :: cs) ++ "\n=======\n".data
            ++ (d :: ds) ++ "\n>>>>>>> REPLACE".data) := by
      simp
    unfold extractHunks
    rw [hdata, hcons]
    rw [List.length_cons]
    show (match matchHunkAt ('<' :: ("<<<<<< SEARCH\n".data ++ (c :: cs)
        ++ "\n=======\n".data ++ (d :: ds) ++ "\n>>>>>>> REPLACE".data)) with
      | some (g1, g2, rest2) =>
        { search := String.mk g1, replace := String.mk g2 } ::
          findHunksAux ("<<<<<< SEARCH\n".data ++ (c :: cs) ++ "\n=======\n".data
            ++ (d :: ds) ++ "\n>>>>>>> REPLACE".data).length rest2
      | Option.none =>
        findHunksAux ("<<<<<< SEARCH\n".data ++ (c :: cs) ++ "\n=======\n".data
          ++ (d :: ds) ++ "\n>>>>>>> REPLACE".data).length
          ("<<<<<< SEARCH\n".data ++ (c :: cs) ++ "\n=======\n".data
            ++ (d :: ds) ++ "\n>>>>>>> REPLACE".data))
      = [{ search := s, replace := r }]
    rw [← hcons, hmatch]
    show { search := String.mk (c :: cs), replace := String.mk (d :: ds) } ::
        findHunksAux _ [] = [{ search := s, replace := r }]
    rw [findHunksAux_nil, ← hs, ← hr, stringMk_data, stringMk_data]
  · rfl

/-- C6 witness for the amended round-trip, at the scenario's own pair. -/
theorem c6_roundtrip_amended_witness :
    extractHunks (renderHunk "foo()" "bar()")
      = [{ search := "foo()", replace := "bar()" }] :=
  c6_roundtrip_amended.1 "foo()" "bar()" 'f' 'b' "oo()".data "ar()".data
    rfl rfl (by decide) rfl rfl (by decide)

theorem fencedTail_fail (inner x2 tail : List Char) (hsuf : x2 <:+ inner) (h2 : x2 ≠ [])
    (hni : ¬ ("\n```".data <:+: inner)) :
    fencedTail (x2 ++ ("\n```".data ++ tail)) = Option.none := by
  cases hx : fencedTail (x2 ++ ("\n```".data ++ tail)) with
  | none => rfl
  | some t =>
    exfalso
    unfold fencedTail at hx
    have heq := (dropLit_eq_some _ _ _).1 hx
    obtain ⟨u, hu⟩ := hsuf
    rcases x2 with _ | ⟨a, _ | ⟨b, _ | ⟨c2, _ | ⟨d2, l⟩⟩⟩⟩
    · exact h2 rfl
    · simp at heq
    · simp at heq
    · simp at heq
    · simp only [List.cons_append, List.append_assoc] at heq
      have hchars : a = '\n' ∧ b = '`' ∧ c2 = '`' ∧ d2 = '`' := by
        have h0 := congrArg (List.take 4) heq
        simp [List.take] at h0
        exact ⟨h0.1, h0.2.1, h0.2.2.1, h0.2.2.2⟩
      obtain ⟨rfl, rfl, rfl, rfl⟩ := hchars
      exact hni ⟨u, l, by rw [← hu]; simp⟩

theorem dropWhile_word_append (x rest : List Char)
    (hx : ∀ ch ∈ x, isWordChar ch = true) :
    List.dropWhile isWordChar (x ++ '\n' :: rest) = '\n' :: rest := by
  induction x with
  | nil =>
    have h : isWordChar '\n' = false := rfl
    simp [List.dropWhile_cons, h]
  | cons a x' ih =>
    have ha := hx a (List.mem_cons_self _ _)
    simp [List.dropWhile_cons, ha,
      ih (fun ch hc => hx ch (List.mem_cons_of_mem a hc))]

theorem fencedAt_render (lang inner tail : List Char)
    (hlang : ∀ ch ∈ lang, isWordChar ch = true)
    (hni : ¬ ("\n```".data <:+: inner)) :
    fencedAt ("```".data ++ (lang ++ ('\n' :: (inner ++ ("\n```".data ++ tail)))))
      = some (inner, tail) := by
  have hlazy : lazyLoop fencedTail [] (inner ++ ("\n```".data ++ tail))
      = some (inner, tail) := by
    have h := lazyLoop_append fencedTail inner ("\n```".data ++ tail) [] tail
      (fun x2 h2 hsuf => fencedTail_fail inner x2 tail hsuf h2 hni)
      (dropLit_append _ _)
    simpa using h
  simp only [fencedAt, dropLit_append]
  rw [dropWhile_word_append lang _ hlang]
  show (match dropLit ['\n'] ('\n' :: (inner ++ ("\n```".data ++ tail))) with
    | some s2 => lazyLoop fencedTail [] s2
    | Option.none => Option.none) = some (inner, tail)
  rw [show dropLit ['\n'] ('\n' :: (inner ++ ("\n```".data ++ tail)))
      = some (inner ++ ("\n```".data ++ tail)) from by simp [dropLit]]
  exact hlazy

theorem fencedSearchAux_skip :
    ∀ (before : List Char), (∀ ch ∈ before, ch ≠ '`') →
      ∀ (fuel : Nat) (rest : List Char),
        fencedSearchAux (before.length + fuel) (before ++ rest)
          = fencedSearchAux fuel rest := by
  intro before
  induction before with
  | nil =>
    intro _ fuel rest
    simp
  | cons b bs ih =>
    intro h fuel rest
    have hb : ¬ ('`' = b) := fun hh => (h b (List.mem_cons_self _ _)) hh.symm
    have hfail : fencedAt (b :: (bs ++ rest)) = Option.none := by
      simp [fencedAt, dropLit, hb]
    have hlen : (b :: bs).length + fuel = (bs.length + fuel) + 1 := by
      simp [List.length_cons]
      omega
    rw [List.cons_append, hlen]
    show (match fencedAt (b :: (bs ++ rest)) with
      | some (inner, _) => some inner
      | Option.none => fencedSearchAux (bs.length + fuel) (bs ++ rest))
      = fencedSearchAux fuel rest
    rw [hfail]
    exact ih (fun ch hc => h ch (List.mem_cons_of_mem b hc)) fuel rest

theorem fencedSearchAux_none :
    ∀ (t : List Char), (∀ ch ∈ t, ch ≠ '`') →
      ∀ fuel, fencedSearchAux fuel t = Option.none := by
  intro t
  induction t with
  | nil =>
    intro _ fuel
    cases fuel <;> rfl
  | cons c rest ih =>
    intro h fuel
    cases fuel with
    | zero => rfl
    | succ n =>
      have hc : ¬ ('`' = c) := fun hh => (h c (List.mem_cons_self _ _)) hh.symm
      have hfail : fencedAt (c :: rest) = Option.none := by
        simp [fencedAt, dropLit, hc]
      show (match fencedAt (c :: rest) with
        | some (inner, _) => some inner
        | Option.none => fencedSearchAux n rest) = Option.none
      rw [hfail]
      exact ih (fun ch hc2 => h ch (List.mem_cons_of_mem c hc2)) n

/-- C7: new-file content extraction (workflow.py lines 634-643).  If the
model response contains a fenced code block — a backtick fence with an
optional word-character language tag, whose body does not itself contain a
closing fence line — the recorded `new_content` is exactly the inner text
of the first match with the fences stripped; a response with no backtick at
all is recorded in full.  Every CreateEdit record's `new_content` is the
result of this extraction. -/
theorem c7_fenced_extraction :
    (∀ (before lang inner tail : String),
        (∀ ch ∈ before.data, ch ≠ '`') →
        (∀ ch ∈ lang.data, isWordChar ch = true) →
        ¬ ("\n```".data <:+: inner.data) →
        newContentOf (before ++ "```" ++ lang ++ "\n" ++ inner ++ "\n```" ++ tail)
          = inner)
    ∧ (∀ t : String, (∀ ch ∈ t.data, ch ≠ '`') → newContentOf t = t)
    ∧ (∀ p text, (createRecord p text).new_content = some (newContentOf text)) := by
  refine ⟨?_, ?_, ?_⟩
  · intro before lang inner tail hb hl hni
    have hscan : fencedSearchAux
        ("```".data ++ (lang.data ++ ('\n' ::
          (inner.data ++ ("\n```".data ++ tail.data))))).length
        ("```".data ++ (lang.data ++ ('\n' ::
          (inner.data ++ ("\n```".data ++ tail.data)))))
        = some inner.data := by
      have hAt := fencedAt_render lang.data inner.data tail.data hl hni
      rw [show ("```".data ++ (lang.data ++ ('\n' ::
            (inner.data ++ ("\n```".data ++ tail.data))))).length
          = ("``".data ++ (lang.data ++ ('\n' ::
            (inner.data ++ ("\n```".data ++ tail.data))))).length + 1 from by simp]
      show (match fencedAt ('`' :: ("``".data ++ (lang.data ++ ('\n' ::
          (inner.data ++ ("\n```".data ++ tail.data)))))) with
        | some (i, _) => some i
        | Option.none => fencedSearchAux
            ("``".data ++ (lang.data ++ ('\n' ::
              (inner.data ++ ("\n```".data ++ tail.data))))).length
            ("``".data ++ (lang.data ++ ('\n' ::
              (inner.data ++ ("\n```".data ++ tail.data))))))
        = some inner.data
      rw [show ('`' :: ("``".data ++ (lang.data ++ ('\n' ::
            (inner.data ++ ("\n```".data ++ tail.data))))))
          = "```".data ++ (lang.data ++ ('\n' ::
            (inner.data ++ ("\n```".data ++ tail.data)))) from rfl]
      rw [hAt]
    have hdata : (before ++ "```" ++ lang ++ "\n" ++ inner ++ "\n```" ++ tail).data
        = before.data ++ ("```".data ++ (lang.data ++ ('\n' ::
            (inner.data ++ ("\n```".data ++ tail.data))))) := by
      simp [String.data_append]
    unfold newContentOf
    rw [hdata, List.length_append, fencedSearchAux_skip before.data hb _ _, hscan]
  · intro t h
    unfold newContentOf
    rw [fencedSearchAux_none t.data h t.data.length]
  · intro p text
    rfl

theorem c7_fenced_extraction_witness :
    newContentOf ("reply: " ++ "```" ++ "python" ++ "\n" ++ "x = 1" ++ "\n```" ++ " done")
      = "x = 1" :=
  c7_fenced_extraction.1 "reply: " "python" "x = 1" " done"
    (by decide) (by decide) (by decide)
